import Mathlib

/-!
Shallow embedding of the feed-ranking-system repository:
candidate generation (recall), multi-objective re-ranking, and the
counterfactual evaluators (IPS / SNIPS), together with proofs of the
specification claims about them.

Real-valued machine arithmetic is modelled over ℚ where the source uses
only field operations, and over ℝ where the source takes square roots
(cosine similarity in the re-ranker).  The `numpy` stable-sort semantics
of `argsort` is modelled as sorting by the lexicographic key
(score, position).
-/

namespace FeedRanking

/-! ## Data model: logged bandit events (src/evaluation/ips_snips.py) -/

/-- A row of the logged dataset: columns `user_id`, `action`, `reward`,
`propensity` (src/data schema, consumed by `ips` and `snips`). -/
structure LoggedEvent where
  user_id : Int
  action : Int
  reward : ℚ
  propensity : ℚ
deriving DecidableEq, Repr

/-- `clip_propensity(p, epsilon) = max(p, epsilon)` (ips_snips.py, line 20). -/
def clip_propensity (p : ℚ) (epsilon : ℚ) : ℚ :=
  max p epsilon

/-- The parallel `weights` / `rewards` lists both `ips` and `snips` build by
looping over the dataframe rows: for each event whose `policy_fn(row)`
equals the logged action, the pair `(1/clip_propensity(propensity), reward)`
is appended, in row order (ips_snips.py, lines 45-55 and 76-87). -/
def collectMatched (df : List LoggedEvent) (policy_fn : LoggedEvent → Int)
    (epsilon : ℚ) : List (ℚ × ℚ) :=
  match df with
  | [] => []
  | e :: rest =>
    if policy_fn e = e.action then
      (1 / clip_propensity e.propensity epsilon, e.reward) ::
        collectMatched rest policy_fn epsilon
    else
      collectMatched rest policy_fn epsilon

/-- `ips(df, policy_fn, epsilon)` (ips_snips.py, lines 31-60): collect the
matched `(weight, reward)` pairs; return `0.0` when the matched list is
empty, otherwise `np.mean(weights * rewards)`, i.e. the sum of
`weight * reward` over the matched events divided by the number of
matched events. -/
def ips (df : List LoggedEvent) (policy_fn : LoggedEvent → Int)
    (epsilon : ℚ) : ℚ :=
  if (collectMatched df policy_fn epsilon).isEmpty then 0
  else (((collectMatched df policy_fn epsilon).map fun p => p.1 * p.2).sum) /
    ((collectMatched df policy_fn epsilon).length : ℚ)

/-- `snips(df, policy_fn, epsilon)` (ips_snips.py, lines 67-92): same matched
pairs; return `0.0` when no event matches, otherwise the sum of
`weight * reward` over matches divided by the sum of the weights. -/
def snips (df : List LoggedEvent) (policy_fn : LoggedEvent → Int)
    (epsilon : ℚ) : ℚ :=
  if (collectMatched df policy_fn epsilon).isEmpty then 0
  else (((collectMatched df policy_fn epsilon).map fun p => p.1 * p.2).sum) /
    (((collectMatched df policy_fn epsilon).map Prod.fst).sum)

/-- The matching events of a dataset, in row order. -/
def matchedEvents (df : List LoggedEvent) (policy_fn : LoggedEvent → Int) :
    List LoggedEvent :=
  match df with
  | [] => []
  | e :: rest =>
    if policy_fn e = e.action then e :: matchedEvents rest policy_fn
    else matchedEvents rest policy_fn

/-- The spec's three-event end-to-end scenario:
`(action=0,reward=1,propensity=0.5)`, `(action=1,reward=0,propensity=0.2)`,
`(action=0,reward=1,propensity=0.1)`. -/
def scenarioDf : List LoggedEvent :=
  [⟨1, 0, 1, 1/2⟩, ⟨2, 1, 0, 1/5⟩, ⟨3, 0, 1, 1/10⟩]

/-- The constant-0 policy of the spec scenario. -/
def policyZero : LoggedEvent → Int := fun _ => 0

/-! ## Candidate generation (src/recall/candidate_generation.py) -/

/-- Dot product over ℚ. -/
def dotQ (a b : List ℚ) : ℚ := (List.zipWith (· * ·) a b).sum

/-- An item-embeddings table: rows of (item id, embedding vector).  The row
position models the positional index; the first component models the
dataframe index (the item id). -/
abbrev ItemTable := List (Int × List ℚ)

/-- `scores = item_embeddings.values @ user_embedding` (line 31). -/
def itemScores (user_embedding : List ℚ) (tbl : ItemTable) : List ℚ :=
  tbl.map fun r => dotQ r.2 user_embedding

/-- Ascending key order on positions used to model stable `argsort`:
position `i` comes before `j` when its score is smaller, or the scores are
equal and `i ≤ j`. -/
def keyLE (s : List ℚ) (i j : Nat) : Prop :=
  s.getD i 0 < s.getD j 0 ∨ (s.getD i 0 = s.getD j 0 ∧ i ≤ j)

/-- Descending key order on positions: greater score first, ties by the
larger position first (the reverse of `keyLE`). -/
def keyGE (s : List ℚ) (i j : Nat) : Prop :=
  s.getD j 0 < s.getD i 0 ∨ (s.getD i 0 = s.getD j 0 ∧ j ≤ i)

instance (s : List ℚ) : DecidableRel (keyLE s) := fun i j => by
  unfold keyLE; infer_instance

instance (s : List ℚ) : DecidableRel (keyGE s) := fun i j => by
  unfold keyGE; infer_instance

instance (s : List ℚ) : IsTotal Nat (keyLE s) where
  total i j := by
    unfold keyLE
    rcases lt_trichotomy (s.getD i 0) (s.getD j 0) with h | h | h
    · exact Or.inl (Or.inl h)
    · rcases Nat.le_total i j with h' | h'
      · exact Or.inl (Or.inr ⟨h, h'⟩)
      · exact Or.inr (Or.inr ⟨h.symm, h'⟩)
    · exact Or.inr (Or.inl h)

instance (s : List ℚ) : IsTrans Nat (keyLE s) where
  trans i j k hij hjk := by
    unfold keyLE at *
    rcases hij with h1 | ⟨h1, h1'⟩ <;> rcases hjk with h2 | ⟨h2, h2'⟩
    · exact Or.inl (h1.trans h2)
    · exact Or.inl (h2 ▸ h1)
    · exact Or.inl (h1 ▸ h2)
    · exact Or.inr ⟨h1.trans h2, h1'.trans h2'⟩

instance (s : List ℚ) : IsAntisymm Nat (keyLE s) where
  antisymm i j hij hji := by
    unfold keyLE at *
    rcases hij with h1 | ⟨h1, h1'⟩ <;> rcases hji with h2 | ⟨h2, h2'⟩
    · exact absurd (h1.trans h2) (lt_irrefl _)
    · exact absurd h1 (h2 ▸ lt_irrefl _)
    · exact absurd h2 (h1 ▸ lt_irrefl _)
    · exact Nat.le_antisymm h1' h2'

instance (s : List ℚ) : IsTotal Nat (keyGE s) where
  total i j := by
    unfold keyGE
    rcases lt_trichotomy (s.getD i 0) (s.getD j 0) with h | h | h
    · exact Or.inr (Or.inl h)
    · rcases Nat.le_total i j with h' | h'
      · exact Or.inr (Or.inr ⟨h.symm, h'⟩)
      · exact Or.inl (Or.inr ⟨h, h'⟩)
    · exact Or.inl (Or.inl h)

instance (s : List ℚ) : IsTrans Nat (keyGE s) where
  trans i j k hij hjk := by
    unfold keyGE at *
    rcases hij with h1 | ⟨h1, h1'⟩ <;> rcases hjk with h2 | ⟨h2, h2'⟩
    · exact Or.inl (h2.trans h1)
    · exact Or.inl (h2 ▸ h1)
    · exact Or.inl (h1 ▸ h2)
    · exact Or.inr ⟨h1.trans h2, h2'.trans h1'⟩

instance (s : List ℚ) : IsAntisymm Nat (keyGE s) where
  antisymm i j hij hji := by
    unfold keyGE at *
    rcases hij with h1 | ⟨h1, h1'⟩ <;> rcases hji with h2 | ⟨h2, h2'⟩
    · exact absurd (h1.trans h2) (lt_irrefl _)
    · exact absurd h1 (h2 ▸ lt_irrefl _)
    · exact absurd h2 (h1 ▸ lt_irrefl _)
    · exact Nat.le_antisymm h2' h1'

/-- Stable ascending `np.argsort(scores)`: positions sorted by
(score, position). -/
def argsortAsc (s : List ℚ) : List Nat :=
  List.insertionSort (keyLE s) (List.range s.length)

/-- The same positions sorted descending (greater score first, ties by the
larger position first): the reverse of the stable ascending argsort. -/
def argsortDesc (s : List ℚ) : List Nat :=
  List.insertionSort (keyGE s) (List.range s.length)

/-- Python slice `l[-k:]` for a non-negative k: the whole list when k = 0,
otherwise the last `min k (length l)` elements. -/
def takeLast (k : Nat) (l : List α) : List α :=
  if k = 0 then l else l.drop (l.length - k)

/-- The item id stored at a positional index
(`item_embeddings.index[i]`). -/
def idAt (tbl : ItemTable) (i : Nat) : Int :=
  ((tbl[i]?).map Prod.fst).getD 0

/-- `embedding_recall(user_embedding, item_embeddings, top_k)` (lines 18-33):
`top_indices = np.argsort(scores)[-top_k:][::-1]`, then positions are mapped
to ids; `argsort` is modelled with stable-sort semantics (equal scores keep
positional order). -/
def embedding_recall (user_embedding : List ℚ) (item_embeddings : ItemTable)
    (top_k : Nat) : List Int :=
  ((takeLast top_k (argsortAsc (itemScores user_embedding item_embeddings))).reverse).map
    (idAt item_embeddings)

/-- First-occurrence dedup with a `seen` accumulator, the loop shared by
`heuristic_recall` (lines 56-61) and the merge loop of `generate_candidates`
(lines 97-104). -/
def dedupFirstAux (seen : List Int) (l : List Int) : List Int :=
  match l with
  | [] => []
  | x :: rest =>
    if x ∈ seen then dedupFirstAux seen rest
    else x :: dedupFirstAux (x :: seen) rest

/-- First-occurrence dedup starting from an empty `seen` set. -/
def dedupFirst (l : List Int) : List Int := dedupFirstAux [] l

/-- `heuristic_recall(recent, trending, follow, max_items)` (lines 40-63):
concatenate the three lists, dedup preserving first occurrence, truncate. -/
def heuristic_recall (recent_item_ids trending_item_ids follow_item_ids : List Int)
    (max_items : Nat) : List Int :=
  (dedupFirst (recent_item_ids ++ trending_item_ids ++ follow_item_ids)).take max_items

/-- `generate_candidates` (lines 70-106): embedding source, heuristic source,
then the merge loop, which is the first-occurrence dedup of the
concatenation of the two source outputs. -/
def generate_candidates (user_embedding : List ℚ) (item_embeddings : ItemTable)
    (recent_item_ids trending_item_ids follow_item_ids : List Int)
    (embedding_k : Nat) (heuristic_k : Nat) : List Int :=
  dedupFirst
    (embedding_recall user_embedding item_embeddings embedding_k ++
      heuristic_recall recent_item_ids trending_item_ids follow_item_ids heuristic_k)

/-! ## Multi-objective re-ranking (src/rerank/multi_objective_rerank.py)

The source takes square roots (`np.linalg.norm`), so this module is modelled
over ℝ.  Fallible operations (Python `dict[key]` lookups that can raise
KeyError) return `Option`; a `none` result of `rerank` models a raised
exception. -/

/-- Dot product over ℝ. -/
def dotR (a b : List ℝ) : ℝ := (List.zipWith (· * ·) a b).sum

/-- Euclidean `np.linalg.norm`. -/
noncomputable def vecNorm (a : List ℝ) : ℝ := Real.sqrt (dotR a a)

/-- `cosine_similarity(a, b)` (lines 21-22):
`np.dot(a, b) / (np.linalg.norm(a) * np.linalg.norm(b) + 1e-8)`. -/
noncomputable def cosine_similarity (a b : List ℝ) : ℝ :=
  dotR a b / (vecNorm a * vecNorm b + 1 / 100000000)

/-- Python `max` of a list (0 sentinel for the empty list, a case
`diversity_penalty` never reaches). -/
noncomputable def listMax : List ℝ → ℝ
  | [] => 0
  | [x] => x
  | x :: y :: rest => max x (listMax (y :: rest))

/-- `diversity_penalty(candidate_embedding, selected_embeddings)`
(lines 25-40): 0.0 when nothing is selected yet, else the maximum cosine
similarity to an already selected embedding. -/
noncomputable def diversity_penalty (candidate_embedding : List ℝ)
    (selected_embeddings : List (List ℝ)) : ℝ :=
  if selected_embeddings.isEmpty then 0
  else listMax (selected_embeddings.map (cosine_similarity candidate_embedding))

/-- The `weights` mapping consumed by `compute_final_score`, with its three
keys "relevance", "diversity", "retention". -/
structure Weights where
  relevance : ℝ
  diversity : ℝ
  retention : ℝ

/-- `compute_final_score(relevance, diversity, retention, weights)`
(lines 47-60). -/
def compute_final_score (relevance diversity retention : ℝ)
    (weights : Weights) : ℝ :=
  weights.relevance * relevance - weights.diversity * diversity
    + weights.retention * retention

/-- Python `dict` lookup: `d[k]` is `dictFind d k` (`none` = KeyError);
`d.get(k, 0.0)` is `(dictFind d k).getD 0`. -/
def dictFind (m : List (Int × α)) (key : Int) : Option α :=
  match m with
  | [] => none
  | (k, v) :: rest => if key = k then some v else dictFind rest key

/-- The score the inner loop of `rerank` computes for one `item_id`
(lines 88-102): `relevance_scores.get(item_id, 0.0)`,
`retention_scores.get(item_id, 0.0)`, `embeddings[item_id]` (`none` when
the item lacks an embedding — the KeyError of line 93), then
`compute_final_score`. -/
noncomputable def scoreOf (relevance_scores retention_scores : List (Int × ℝ))
    (embeddings : List (Int × List ℝ)) (weights : Weights)
    (selected_embeddings : List (List ℝ)) (item_id : Int) : Option ℝ :=
  (dictFind embeddings item_id).map fun e =>
    compute_final_score ((dictFind relevance_scores item_id).getD 0)
      (diversity_penalty e selected_embeddings)
      ((dictFind retention_scores item_id).getD 0) weights

/-- The `for item_id in remaining` scan of one greedy iteration
(lines 85-106): keep the best `(id, score)` so far and replace it only on a
strictly greater score.  The initial `best_id = None, best_score = -np.inf`
state is the `none` accumulator (any finite score beats it).  A missing
embedding aborts the scan with `none` (the KeyError). -/
noncomputable def scanBest (relM retM : List (Int × ℝ))
    (embM : List (Int × List ℝ)) (w : Weights) (selEmbs : List (List ℝ)) :
    List Int → Option (Int × ℝ) → Option (Option (Int × ℝ))
  | [], acc => some acc
  | i :: rest, acc =>
    match scoreOf relM retM embM w selEmbs i with
    | none => none
    | some s =>
      match acc with
      | none => scanBest relM retM embM w selEmbs rest (some (i, s))
      | some (b, bs) =>
        if bs < s then scanBest relM retM embM w selEmbs rest (some (i, s))
        else scanBest relM retM embM w selEmbs rest (some (b, bs))

/-- The outer greedy loop of `rerank` (lines 84-110), running a fixed number
of iterations: scan the remaining items, append the winner and its embedding,
remove it from `remaining`.  A scan that yields no winner (empty `remaining`:
`best_id` stays `None` and `embeddings[None]` raises) or hits a missing
embedding ends the call with `none`. -/
noncomputable def rerankLoop (relM retM : List (Int × ℝ))
    (embM : List (Int × List ℝ)) (w : Weights) :
    Nat → List Int → List (List ℝ) → List Int → Option (List Int)
  | 0, sel, _, _ => some sel
  | n + 1, sel, selEmbs, remaining =>
    match scanBest relM retM embM w selEmbs remaining none with
    | none => none
    | some none => none
    | some (some (b, _)) =>
      match dictFind embM b with
      | none => none
      | some be =>
        rerankLoop relM retM embM w n (sel ++ [b]) (selEmbs ++ [be])
          (remaining.erase b)

/-- `rerank(candidate_ids, relevance_scores, embeddings, retention_scores,
weights, top_k)` (lines 67-112): `remaining = set(candidate_ids)` (modelled
as the first-occurrence dedup, one fixed enumeration of the set), and the
greedy loop runs `min(top_k, len(candidate_ids))` times. -/
noncomputable def rerank (candidate_ids : List Int)
    (relevance_scores : List (Int × ℝ)) (embeddings : List (Int × List ℝ))
    (retention_scores : List (Int × ℝ)) (weights : Weights) (top_k : Nat) :
    Option (List Int) :=
  rerankLoop relevance_scores retention_scores embeddings weights
    (min top_k candidate_ids.length) [] [] (dedupFirst candidate_ids)

/-! ## Further definitions used to state the claims -/

/-- The full-agreement policy: it returns, for every row, the logged action
itself, so `policy_fn(event) == event.action` holds for every event. -/
def policySelf : LoggedEvent → Int := fun e => e.action

/-- Modelled from the spec: the plain (unweighted) mean of the rewards of
the matched events. -/
def meanMatchedReward (df : List LoggedEvent) (policy_fn : LoggedEvent → Int) : ℚ :=
  ((matchedEvents df policy_fn).map (·.reward)).sum /
    ((matchedEvents df policy_fn).length : ℚ)

/-- A two-event, full-agreement dataset with unequal propensities
(rewards 1 and 0, propensities 0.5 and 0.1). -/
def snipsSkewDf : List LoggedEvent :=
  [⟨1, 0, 1, 1/2⟩, ⟨2, 1, 0, 1/10⟩]

/-- A two-event, full-agreement dataset whose events share one propensity. -/
def snipsUniformDf : List LoggedEvent :=
  [⟨1, 0, 1, 1⟩, ⟨2, 5, 0, 1⟩]

/-- Modelled from the spec: the first `k` positions of the descending
similarity order (greater score first, equal scores resolved toward the
larger position), mapped to item ids. -/
def specEmbedTopK (user_embedding : List ℚ) (tbl : ItemTable) (k : Nat) :
    List Int :=
  ((argsortDesc (itemScores user_embedding tbl)).take k).map (idAt tbl)

/-- A two-item table whose rows have identical embeddings, so both items
receive the same similarity score. -/
def tieTable : ItemTable := [(0, [1]), (1, [1])]

/-- A two-item table with distinct scores against the user vector `[1]`. -/
def twoTable : ItemTable := [(5, [1]), (6, [2])]

/-! ## Helper lemmas: sums over lists of rationals -/

theorem listSum_nonneg {l : List ℚ} (h : ∀ x ∈ l, 0 ≤ x) : 0 ≤ l.sum := by
  induction l with
  | nil => simp
  | cons x rest ih =>
    have hx := h x (by simp)
    have hr := ih fun y hy => h y (by simp [hy])
    simp only [List.sum_cons]
    linarith

theorem listSum_pos {l : List ℚ} (h : ∀ x ∈ l, 0 < x) (hne : l ≠ []) :
    0 < l.sum := by
  cases l with
  | nil => exact absurd rfl hne
  | cons x rest =>
    have hx := h x (by simp)
    have hr : (0 : ℚ) ≤ rest.sum :=
      listSum_nonneg fun y hy => le_of_lt (h y (List.mem_cons_of_mem _ hy))
    simp only [List.sum_cons]
    linarith

theorem listSum_le {α : Type} {f g : α → ℚ} {l : List α}
    (h : ∀ x ∈ l, f x ≤ g x) : (l.map f).sum ≤ (l.map g).sum := by
  induction l with
  | nil => simp
  | cons x rest ih =>
    have hx := h x (by simp)
    have hr := ih fun y hy => h y (by simp [hy])
    simp only [List.map_cons, List.sum_cons]
    linarith

theorem listSum_map_mul_left {α : Type} (c : ℚ) (f : α → ℚ) (l : List α) :
    (l.map fun x => c * f x).sum = c * (l.map f).sum := by
  induction l with
  | nil => simp
  | cons x rest ih =>
    simp only [List.map_cons, List.sum_cons, ih]
    ring

theorem listSum_const {α : Type} (c : ℚ) (l : List α) :
    (l.map fun _ => c).sum = (l.length : ℚ) * c := by
  induction l with
  | nil => simp
  | cons x rest ih =>
    simp only [List.map_cons, List.sum_cons, ih, List.length_cons]
    push_cast
    ring

/-! ## Helper lemmas: the matched-event lists of ips and snips -/

theorem collectMatched_eq (df : List LoggedEvent) (pol : LoggedEvent → Int)
    (ε : ℚ) :
    collectMatched df pol ε =
      (matchedEvents df pol).map fun e =>
        (1 / clip_propensity e.propensity ε, e.reward) := by
  induction df with
  | nil => rfl
  | cons e rest ih =>
    by_cases h : pol e = e.action <;>
      simp [collectMatched, matchedEvents, h, ih]

theorem matchedEvents_eq_self {df : List LoggedEvent}
    {pol : LoggedEvent → Int} (h : ∀ e ∈ df, pol e = e.action) :
    matchedEvents df pol = df := by
  induction df with
  | nil => rfl
  | cons e rest ih =>
    have he := h e (by simp)
    have hr := ih fun x hx => h x (by simp [hx])
    simp [matchedEvents, he, hr]

theorem matchedEvents_eq_nil {df : List LoggedEvent}
    {pol : LoggedEvent → Int} (h : ∀ e ∈ df, pol e ≠ e.action) :
    matchedEvents df pol = [] := by
  induction df with
  | nil => rfl
  | cons e rest ih =>
    have he := h e (by simp)
    have hr := ih fun x hx => h x (by simp [hx])
    simp [matchedEvents, he, hr]

theorem mem_of_mem_matchedEvents {df : List LoggedEvent}
    {pol : LoggedEvent → Int} {e : LoggedEvent}
    (h : e ∈ matchedEvents df pol) : e ∈ df := by
  induction df with
  | nil => simp [matchedEvents] at h
  | cons x rest ih =>
    by_cases hx : pol x = x.action
    · rw [matchedEvents, if_pos hx] at h
      rcases List.mem_cons.mp h with h' | h'
      · simp [h']
      · simp [ih h']
    · rw [matchedEvents, if_neg hx] at h
      simp [ih h]

/-- Closed form of `snips` in terms of the matched events. -/
theorem snips_formula (df : List LoggedEvent) (pol : LoggedEvent → Int)
    (ε : ℚ) :
    snips df pol ε =
      if matchedEvents df pol = [] then 0
      else ((matchedEvents df pol).map fun e =>
          (1 / clip_propensity e.propensity ε) * e.reward).sum /
        ((matchedEvents df pol).map fun e =>
          1 / clip_propensity e.propensity ε).sum := by
  rw [snips, collectMatched_eq]
  by_cases h : matchedEvents df pol = []
  · simp [h]
  · rw [if_neg (by simpa [List.isEmpty_iff] using h), if_neg h]
    simp [List.map_map, Function.comp_def]

/-! ## Claim C1 -/

/-- C1: the claim states that `ips` sums `(1/max(propensity, eps)) * reward`
over the matching events and divides by the TOTAL number of events `N`, so
that the spec's three-event scenario with the constant-0 policy yields
`(2 + 10)/3 = 4.0`.  The code instead divides by the number of MATCHING
events: on that scenario it returns `(2 + 10)/2 = 6.0`, not `4.0`.  This
theorem evaluates the code at the failing input. -/
theorem C1_ips_divides_by_match_count :
    ips scenarioDf policyZero (1/100) = 6 ∧
      ips scenarioDf policyZero (1/100) ≠ 4 := by
  constructor <;>
    norm_num [ips, collectMatched, clip_propensity, scenarioDf, policyZero,
      max_def]

/-! ## Claim C2 -/

/-- C2 counterexample: on a two-event full-agreement dataset with
propensities 0.5 and 0.1 and rewards 1 and 0, `snips` returns
`(2·1 + 10·0)/(2 + 10) = 1/6`, while the plain unweighted mean of the
matched rewards is `1/2`: `snips` under full agreement is NOT independent of
the stored propensity values. -/
theorem C2_counterexample :
    snips snipsSkewDf policySelf (1/100) = 1/6 ∧
      meanMatchedReward snipsSkewDf policySelf = 1/2 ∧
      snips snipsSkewDf policySelf (1/100) ≠
        meanMatchedReward snipsSkewDf policySelf := by
  refine ⟨?_, ?_, ?_⟩ <;>
    norm_num [snips, meanMatchedReward, collectMatched, matchedEvents,
      clip_propensity, snipsSkewDf, policySelf, max_def]

/-- C2 as amended: for a non-empty full-agreement dataset, `snips` equals the
weighted mean of the rewards with weights `1/max(propensity, epsilon)` — a
quantity that does depend on the propensities; it reduces to the plain
unweighted mean of the rewards exactly in the special case that all events
share one propensity value (given `epsilon > 0`). -/
theorem C2_snips_weighted_mean {df : List LoggedEvent}
    {pol : LoggedEvent → Int} {ε : ℚ}
    (hagree : ∀ e ∈ df, pol e = e.action) (hne : df ≠ []) (hε : 0 < ε) :
    snips df pol ε =
      ((df.map fun e => (1 / clip_propensity e.propensity ε) * e.reward).sum) /
        ((df.map fun e => 1 / clip_propensity e.propensity ε).sum) ∧
    ∀ p : ℚ, (∀ e ∈ df, e.propensity = p) →
      snips df pol ε = ((df.map (·.reward)).sum) / ((df.length : ℚ)) := by
  have hmatch : matchedEvents df pol = df := matchedEvents_eq_self hagree
  have hgen : snips df pol ε =
      ((df.map fun e => (1 / clip_propensity e.propensity ε) * e.reward).sum) /
        ((df.map fun e => 1 / clip_propensity e.propensity ε).sum) := by
    rw [snips_formula, hmatch, if_neg hne]
  refine ⟨hgen, fun p hp => ?_⟩
  have hclip : clip_propensity p ε ≠ 0 :=
    ne_of_gt (lt_of_lt_of_le hε (le_max_right _ _))
  have h1 : (df.map fun e => (1 / clip_propensity e.propensity ε) * e.reward)
      = df.map fun e => (1 / clip_propensity p ε) * e.reward := by
    apply List.map_congr_left
    intro e he
    rw [hp e he]
  have h2 : (df.map fun e => 1 / clip_propensity e.propensity ε)
      = df.map fun _ => 1 / clip_propensity p ε := by
    apply List.map_congr_left
    intro e he
    rw [hp e he]
  rw [hgen, h1, h2, listSum_const]
  have hrw : (df.map fun e => (1 / clip_propensity p ε) * e.reward).sum
      = (1 / clip_propensity p ε) * (df.map (·.reward)).sum :=
    listSum_map_mul_left _ _ _
  rw [hrw, mul_comm ((df.length : ℚ)) (1 / clip_propensity p ε),
    mul_div_mul_left _ _ (one_div_ne_zero hclip)]

/-- C2 witness: the amended statement at a concrete input (two events, full
agreement, both propensities 1, epsilon 1): snips equals both the weighted
mean and, since the propensities agree, the plain mean (1 + 0)/2. -/
theorem C2_snips_weighted_mean_witness :
    (∀ e ∈ snipsUniformDf, policySelf e = e.action) ∧ snipsUniformDf ≠ [] ∧
      (0 : ℚ) < 1 ∧
      (snips snipsUniformDf policySelf 1 =
        ((snipsUniformDf.map fun e =>
          (1 / clip_propensity e.propensity 1) * e.reward).sum) /
          ((snipsUniformDf.map fun e =>
            1 / clip_propensity e.propensity 1).sum) ∧
      ∀ p : ℚ, (∀ e ∈ snipsUniformDf, e.propensity = p) →
        snips snipsUniformDf policySelf 1 =
          ((snipsUniformDf.map (·.reward)).sum) /
            ((snipsUniformDf.length : ℚ))) :=
  ⟨by simp [snipsUniformDf, policySelf], by simp [snipsUniformDf], one_pos,
    C2_snips_weighted_mean (by simp [snipsUniformDf, policySelf])
      (by simp [snipsUniformDf]) one_pos⟩

/-! ## Claim C6 -/

/-- C6: for binary rewards and positive epsilon, `snips` always lies in
[0, 1]; and when no event matches the policy it returns exactly 0. -/
theorem C6_snips_bounds {df : List LoggedEvent} {pol : LoggedEvent → Int}
    {ε : ℚ} (hrew : ∀ e ∈ df, e.reward = 0 ∨ e.reward = 1) (hε : 0 < ε) :
    (0 ≤ snips df pol ε ∧ snips df pol ε ≤ 1) ∧
      ((∀ e ∈ df, pol e ≠ e.action) → snips df pol ε = 0) := by
  constructor
  · rw [snips_formula]
    by_cases hm : matchedEvents df pol = []
    · simp [hm]
    · rw [if_neg hm]
      have hwpos : ∀ e ∈ matchedEvents df pol,
          0 < 1 / clip_propensity e.propensity ε := by
        intro e he
        have : 0 < clip_propensity e.propensity ε :=
          lt_of_lt_of_le hε (le_max_right _ _)
        positivity
      have hr01 : ∀ e ∈ matchedEvents df pol,
          e.reward = 0 ∨ e.reward = 1 := fun e he =>
        hrew e (mem_of_mem_matchedEvents he)
      have hSpos : 0 < ((matchedEvents df pol).map fun e =>
          1 / clip_propensity e.propensity ε).sum := by
        apply listSum_pos
        · intro x hx
          rcases List.mem_map.mp hx with ⟨e, he, rfl⟩
          exact hwpos e he
        · simpa using hm
      have hNnonneg : 0 ≤ ((matchedEvents df pol).map fun e =>
          (1 / clip_propensity e.propensity ε) * e.reward).sum := by
        apply listSum_nonneg
        intro x hx
        rcases List.mem_map.mp hx with ⟨e, he, rfl⟩
        rcases hr01 e he with h | h <;> rw [h]
        · simp
        · simpa using le_of_lt (hwpos e he)
      have hNleS : ((matchedEvents df pol).map fun e =>
          (1 / clip_propensity e.propensity ε) * e.reward).sum
          ≤ ((matchedEvents df pol).map fun e =>
              1 / clip_propensity e.propensity ε).sum := by
        apply listSum_le
        intro e he
        rcases hr01 e he with h | h <;> rw [h]
        · simpa using le_of_lt (hwpos e he)
        · simp
      exact ⟨div_nonneg hNnonneg (le_of_lt hSpos),
        (div_le_one hSpos).mpr hNleS⟩
  · intro hnone
    rw [snips_formula, matchedEvents_eq_nil hnone]
    simp

/-- C6 witness: the bounds and the no-match sentinel at a concrete input
(the three-event scenario dataset, whose rewards are binary, epsilon 1). -/
theorem C6_snips_bounds_witness :
    (∀ e ∈ scenarioDf, e.reward = 0 ∨ e.reward = 1) ∧ (0 : ℚ) < 1 ∧
      ((0 ≤ snips scenarioDf policyZero 1 ∧ snips scenarioDf policyZero 1 ≤ 1) ∧
        ((∀ e ∈ scenarioDf, policyZero e ≠ e.action) →
          snips scenarioDf policyZero 1 = 0)) :=
  ⟨by simp [scenarioDf], one_pos,
    C6_snips_bounds (by simp [scenarioDf]) one_pos⟩

/-! ## Claim C9 -/

/-- C9: the clipped propensity is `max(p, epsilon)` — a floor, never a
ceiling — and the effective importance weight attached to every matching
event by the shared matched-pair collection that both `ips` and `snips`
consume is `1/max(propensity, epsilon)`; for epsilon = 0.1 and logged
propensity 0.001 that weight is `1/0.1 = 10`, not `1/0.001 = 1000`. -/
theorem C9_clipping_floor :
    (∀ p ε : ℚ, clip_propensity p ε = max p ε ∧
      ε ≤ clip_propensity p ε ∧ p ≤ clip_propensity p ε) ∧
    (∀ (df : List LoggedEvent) (pol : LoggedEvent → Int) (ε : ℚ),
      (collectMatched df pol ε).map Prod.fst =
        (matchedEvents df pol).map fun e => 1 / max e.propensity ε) ∧
    (1 / clip_propensity (1/1000) (1/10) = (10 : ℚ)) ∧
    (1 / clip_propensity (1/1000) (1/10) ≠ (1000 : ℚ)) := by
  refine ⟨fun p ε => ⟨rfl, le_max_right _ _, le_max_left _ _⟩,
    fun df pol ε => ?_, ?_, ?_⟩
  · rw [collectMatched_eq]
    simp [List.map_map, Function.comp_def, clip_propensity]
  · norm_num [clip_propensity, max_def]
  · norm_num [clip_propensity, max_def]

/-! ## Helper lemmas: first-occurrence dedup -/

theorem mem_dedupFirstAux {x : Int} (l : List Int) : ∀ (seen : List Int),
    x ∈ dedupFirstAux seen l ↔ x ∈ l ∧ x ∉ seen := by
  induction l with
  | nil => intro seen; simp [dedupFirstAux]
  | cons y rest ih =>
    intro seen
    by_cases hy : y ∈ seen
    · rw [dedupFirstAux, if_pos hy, ih]
      constructor
      · rintro ⟨h1, h2⟩
        exact ⟨List.mem_cons_of_mem _ h1, h2⟩
      · rintro ⟨h1, h2⟩
        rcases List.mem_cons.mp h1 with rfl | h1
        · exact absurd hy h2
        · exact ⟨h1, h2⟩
    · rw [dedupFirstAux, if_neg hy]
      constructor
      · intro hmem
        rcases List.mem_cons.mp hmem with rfl | h1
        · exact ⟨List.mem_cons_self _ _, hy⟩
        · obtain ⟨ha, hb⟩ := (ih _).mp h1
          exact ⟨List.mem_cons_of_mem _ ha,
            fun hs => hb (List.mem_cons_of_mem _ hs)⟩
      · rintro ⟨h1, h2⟩
        rcases List.mem_cons.mp h1 with rfl | h1
        · exact List.mem_cons_self _ _
        · by_cases hxy : x = y
          · subst hxy
            exact List.mem_cons_self _ _
          · refine List.mem_cons_of_mem _ ((ih _).mpr ⟨h1, fun hs => ?_⟩)
            rcases List.mem_cons.mp hs with h | h
            · exact hxy h
            · exact h2 h

theorem nodup_dedupFirstAux (l : List Int) : ∀ (seen : List Int),
    (dedupFirstAux seen l).Nodup := by
  induction l with
  | nil => intro seen; simp [dedupFirstAux]
  | cons y rest ih =>
    intro seen
    by_cases hy : y ∈ seen
    · rw [dedupFirstAux, if_pos hy]
      exact ih seen
    · rw [dedupFirstAux, if_neg hy]
      refine List.nodup_cons.mpr ⟨fun hmem => ?_, ih _⟩
      exact ((mem_dedupFirstAux _ _).mp hmem).2 (List.mem_cons_self _ _)

theorem dedupFirstAux_eq_self (l : List Int) : ∀ (seen : List Int),
    l.Nodup → (∀ x ∈ l, x ∉ seen) → dedupFirstAux seen l = l := by
  induction l with
  | nil => intro seen _ _; rfl
  | cons y rest ih =>
    intro seen hnd hdisj
    have hy : y ∉ seen := hdisj y (List.mem_cons_self _ _)
    rw [dedupFirstAux, if_neg hy]
    congr 1
    refine ih _ (List.nodup_cons.mp hnd).2 fun x hx hmem => ?_
    rcases List.mem_cons.mp hmem with rfl | h
    · exact (List.nodup_cons.mp hnd).1 hx
    · exact hdisj x (List.mem_cons_of_mem _ hx) h

theorem dedupFirstAux_append (a : List Int) : ∀ (seen b : List Int),
    ∃ t, dedupFirstAux seen (a ++ b) = dedupFirstAux seen a ++ t := by
  induction a with
  | nil => intro seen b; exact ⟨dedupFirstAux seen b, rfl⟩
  | cons y rest ih =>
    intro seen b
    by_cases hy : y ∈ seen
    · rw [List.cons_append, dedupFirstAux, if_pos hy, dedupFirstAux, if_pos hy]
      exact ih seen b
    · rw [List.cons_append, dedupFirstAux, if_neg hy, dedupFirstAux, if_neg hy]
      obtain ⟨t, ht⟩ := ih (y :: seen) b
      exact ⟨t, by rw [ht, List.cons_append]⟩

/-! ## Claim C5 -/

/-- C5: the output of `generate_candidates` is exactly the first-occurrence
dedup of (embedding-source output ++ heuristic-source output); it contains no
duplicate ids; every id in it comes from the embedding top-K or one of the
three heuristic input lists; and the deduped embedding-source output is an
initial segment of the result, so an id present in both sources keeps its
embedding-source position. -/
theorem C5_generate_candidates_dedup (u : List ℚ) (tbl : ItemTable)
    (recent trending follow : List Int) (ek hk : Nat) :
    generate_candidates u tbl recent trending follow ek hk =
      dedupFirst (embedding_recall u tbl ek ++
        heuristic_recall recent trending follow hk) ∧
    (generate_candidates u tbl recent trending follow ek hk).Nodup ∧
    (∀ x ∈ generate_candidates u tbl recent trending follow ek hk,
      x ∈ embedding_recall u tbl ek ∨ x ∈ recent ∨ x ∈ trending ∨
        x ∈ follow) ∧
    ∃ t, generate_candidates u tbl recent trending follow ek hk =
      dedupFirst (embedding_recall u tbl ek) ++ t := by
  refine ⟨rfl, nodup_dedupFirstAux _ _, fun x hx => ?_,
    dedupFirstAux_append _ _ _⟩
  rw [generate_candidates, dedupFirst, mem_dedupFirstAux] at hx
  rcases List.mem_append.mp hx.1 with h | h
  · exact Or.inl h
  · rw [heuristic_recall] at h
    have h' := List.take_subset _ _ h
    rw [dedupFirst, mem_dedupFirstAux] at h'
    rcases List.mem_append.mp h'.1 with h2 | h2
    · rcases List.mem_append.mp h2 with h3 | h3
      · exact Or.inr (Or.inl h3)
      · exact Or.inr (Or.inr (Or.inl h3))
    · exact Or.inr (Or.inr (Or.inr h2))

/-! ## Helper lemmas: the argsort model -/

theorem argsortAsc_perm (s : List ℚ) :
    (argsortAsc s).Perm (List.range s.length) :=
  List.perm_insertionSort _ _

theorem argsortDesc_perm (s : List ℚ) :
    (argsortDesc s).Perm (List.range s.length) :=
  List.perm_insertionSort _ _

theorem length_argsortAsc (s : List ℚ) :
    (argsortAsc s).length = s.length := by
  rw [(argsortAsc_perm s).length_eq, List.length_range]

theorem length_argsortDesc (s : List ℚ) :
    (argsortDesc s).length = s.length := by
  rw [(argsortDesc_perm s).length_eq, List.length_range]

theorem keyLE_flip {s : List ℚ} {i j : Nat} (h : keyLE s i j) : keyGE s j i := by
  rcases h with h | ⟨h1, h2⟩
  · exact Or.inl h
  · exact Or.inr ⟨h1.symm, h2⟩

/-- The reverse of the stable ascending argsort is the descending sort by
(score, position): greater score first, ties by the larger position first. -/
theorem reverse_argsortAsc (s : List ℚ) :
    (argsortAsc s).reverse = argsortDesc s := by
  apply List.eq_of_perm_of_sorted (r := keyGE s)
  · exact ((argsortAsc s).reverse_perm.trans (argsortAsc_perm s)).trans
      (argsortDesc_perm s).symm
  · exact List.pairwise_reverse.mpr
      (List.Pairwise.imp (fun hab => keyLE_flip hab)
        (List.sorted_insertionSort _ _))
  · exact List.sorted_insertionSort _ _

theorem takeLast_zero {α : Type} (l : List α) : takeLast 0 l = l := by
  rw [takeLast, if_pos rfl]

theorem takeLast_of_pos {α : Type} {k : Nat} (hk : k ≠ 0) (l : List α) :
    takeLast k l = l.drop (l.length - k) := by
  rw [takeLast, if_neg hk]

/-! ## Claim C3 -/

/-- C3 counterexample: on a two-item table whose rows carry identical
embeddings (both items score 1 against the user vector `[1]`), asking for
the top 1 item returns the item at position 1, not the item at position 0:
the ascending argsort is stable, so slicing from the end and reversing
resolves ties toward the LARGER original position, contradicting the
claimed smaller-index tie-break. -/
theorem C3_counterexample :
    embedding_recall [1] tieTable 1 = [1] ∧
      embedding_recall [1] tieTable 1 ≠ [0] := by
  have h : embedding_recall [1] tieTable 1 = [1] := by
    norm_num [embedding_recall, itemScores, dotQ, tieTable, argsortAsc,
      keyLE, takeLast, idAt, List.insertionSort, List.orderedInsert,
      List.range_succ]
  exact ⟨h, by rw [h]; simp⟩

/-- C3 as amended: for a table with at least `k` rows and `k ≥ 1`,
`embedding_recall` returns exactly the `k` highest-scoring items in
descending score order, with ties between equal-scoring items broken in
favor of the item with the LARGER original row position (the reverse of a
stable ascending sort), and the output has exactly `k` entries. -/
theorem C3_embedding_topk_desc (u : List ℚ) (tbl : ItemTable) (k : Nat)
    (hk1 : 1 ≤ k) (hkn : k ≤ tbl.length) :
    embedding_recall u tbl k = specEmbedTopK u tbl k ∧
      (embedding_recall u tbl k).length = k := by
  have hlen_s : (itemScores u tbl).length = tbl.length := List.length_map _ _
  have hlen : (argsortAsc (itemScores u tbl)).length = tbl.length := by
    rw [length_argsortAsc, hlen_s]
  have hmain : embedding_recall u tbl k = specEmbedTopK u tbl k := by
    rw [embedding_recall, specEmbedTopK]
    congr 1
    rw [takeLast_of_pos (by omega), List.reverse_drop, reverse_argsortAsc,
      hlen]
    congr 1
    omega
  refine ⟨hmain, ?_⟩
  rw [hmain, specEmbedTopK, List.length_map, List.length_take,
    length_argsortDesc, hlen_s]
  omega

/-- C3 witness: the amended statement at a concrete input (two items with
distinct scores, k = 1). -/
theorem C3_embedding_topk_desc_witness :
    1 ≤ 1 ∧ 1 ≤ twoTable.length ∧
      (embedding_recall [1] twoTable 1 = specEmbedTopK [1] twoTable 1 ∧
        (embedding_recall [1] twoTable 1).length = 1) :=
  ⟨le_refl 1, by decide, C3_embedding_topk_desc [1] twoTable 1 (le_refl 1)
    (by decide)⟩

/-! ## Claim C10 -/

/-- C10: with `top_k = 0` the slice `[-0:]` keeps the whole array, so
`embedding_recall` returns ALL items of the table in descending similarity
order (not the empty list), its output length is the table size, and hence
every table item's id is present in the output of `generate_candidates`
called with `embedding_k = 0`. -/
theorem C10_topk_zero_returns_all (u : List ℚ) (tbl : ItemTable)
    (recent trending follow : List Int) (hk : Nat) :
    embedding_recall u tbl 0 = specEmbedTopK u tbl tbl.length ∧
    (embedding_recall u tbl 0).length = tbl.length ∧
    ∀ p ∈ tbl, p.1 ∈ generate_candidates u tbl recent trending follow 0 hk := by
  have hlen_s : (itemScores u tbl).length = tbl.length := List.length_map _ _
  have hdesc_len : (argsortDesc (itemScores u tbl)).length = tbl.length := by
    rw [length_argsortDesc, hlen_s]
  have h1 : embedding_recall u tbl 0 =
      (argsortDesc (itemScores u tbl)).map (idAt tbl) := by
    rw [embedding_recall, takeLast_zero, reverse_argsortAsc]
  refine ⟨?_, ?_, fun p hp => ?_⟩
  · rw [h1, specEmbedTopK,
      List.take_of_length_le (le_of_eq hdesc_len)]
  · rw [h1, List.length_map, hdesc_len]
  · have hemb : p.1 ∈ embedding_recall u tbl 0 := by
      rw [h1]
      rcases List.mem_iff_getElem.mp hp with ⟨i, hi, hget⟩
      have hidx : i ∈ argsortDesc (itemScores u tbl) :=
        ((argsortDesc_perm _).mem_iff).mpr
          (List.mem_range.mpr (by rw [hlen_s]; exact hi))
      have hid : idAt tbl i = p.1 := by
        rw [idAt, List.getElem?_eq_getElem hi, hget]
        rfl
      rw [← hid]
      exact List.mem_map_of_mem _ hidx
    rw [generate_candidates, dedupFirst]
    exact (mem_dedupFirstAux _ _).mpr
      ⟨List.mem_append_left _ hemb, by simp⟩

/-! ## Helper lemmas: the greedy scan of rerank -/

theorem scanBest_cons_fail (relM retM : List (Int × ℝ))
    (embM : List (Int × List ℝ)) (w : Weights) (selEmbs : List (List ℝ))
    {x : Int} (rest : List Int) (acc : Option (Int × ℝ))
    (hfx : scoreOf relM retM embM w selEmbs x = none) :
    scanBest relM retM embM w selEmbs (x :: rest) acc = none := by
  rw [scanBest, hfx]

theorem scanBest_cons_none (relM retM : List (Int × ℝ))
    (embM : List (Int × List ℝ)) (w : Weights) (selEmbs : List (List ℝ))
    {x : Int} (rest : List Int) {s : ℝ}
    (hfx : scoreOf relM retM embM w selEmbs x = some s) :
    scanBest relM retM embM w selEmbs (x :: rest) none =
      scanBest relM retM embM w selEmbs rest (some (x, s)) := by
  rw [scanBest, hfx]

theorem scanBest_cons_replace (relM retM : List (Int × ℝ))
    (embM : List (Int × List ℝ)) (w : Weights) (selEmbs : List (List ℝ))
    {x : Int} (rest : List Int) {s : ℝ} {b : Int} {bs : ℝ}
    (hfx : scoreOf relM retM embM w selEmbs x = some s) (hlt : bs < s) :
    scanBest relM retM embM w selEmbs (x :: rest) (some (b, bs)) =
      scanBest relM retM embM w selEmbs rest (some (x, s)) := by
  rw [scanBest, hfx]
  exact if_pos hlt

theorem scanBest_cons_keep (relM retM : List (Int × ℝ))
    (embM : List (Int × List ℝ)) (w : Weights) (selEmbs : List (List ℝ))
    {x : Int} (rest : List Int) {s : ℝ} {b : Int} {bs : ℝ}
    (hfx : scoreOf relM retM embM w selEmbs x = some s) (hlt : ¬ bs < s) :
    scanBest relM retM embM w selEmbs (x :: rest) (some (b, bs)) =
      scanBest relM retM embM w selEmbs rest (some (b, bs)) := by
  rw [scanBest, hfx]
  exact if_neg hlt

/-- The accumulator invariant of the scan: starting from a best pair
`(b₀, s₀)`, the scan returns a pair whose score bounds every score seen, and
either the accumulator survived (nothing was strictly greater) or the winner
is an element of the list, strictly greater than the accumulator score and
strictly greater than every score encountered before it. -/
theorem scanBest_go (relM retM : List (Int × ℝ)) (embM : List (Int × List ℝ))
    (w : Weights) (selEmbs : List (List ℝ)) (l : List Int) :
    ∀ (b₀ : Int) (s₀ : ℝ),
    (∀ x ∈ l, (scoreOf relM retM embM w selEmbs x).isSome) →
    ∃ b s, scanBest relM retM embM w selEmbs l (some (b₀, s₀)) =
        some (some (b, s)) ∧
      s₀ ≤ s ∧
      (∀ x ∈ l, ∀ sx, scoreOf relM retM embM w selEmbs x = some sx → sx ≤ s) ∧
      ((b = b₀ ∧ s = s₀) ∨
        ∃ l1 l2, l = l1 ++ b :: l2 ∧
          scoreOf relM retM embM w selEmbs b = some s ∧ s₀ < s ∧
          ∀ x ∈ l1, ∀ sx, scoreOf relM retM embM w selEmbs x = some sx →
            sx < s) := by
  induction l with
  | nil =>
    intro b₀ s₀ _
    exact ⟨b₀, s₀, rfl, le_refl _, by simp, Or.inl ⟨rfl, rfl⟩⟩
  | cons x rest ih =>
    intro b₀ s₀ hcov
    obtain ⟨sx, hfx⟩ :=
      Option.isSome_iff_exists.mp (hcov x (List.mem_cons_self _ _))
    have hcov' : ∀ y ∈ rest, (scoreOf relM retM embM w selEmbs y).isSome :=
      fun y hy => hcov y (List.mem_cons_of_mem _ hy)
    by_cases hlt : s₀ < sx
    · obtain ⟨b, s, heq, hle, hbound, hcases⟩ := ih x sx hcov'
      refine ⟨b, s, ?_, le_of_lt (lt_of_lt_of_le hlt hle), ?_, ?_⟩
      · rw [scanBest_cons_replace relM retM embM w selEmbs rest hfx hlt]
        exact heq
      · intro y hy sy hfy
        rcases List.mem_cons.mp hy with rfl | hy'
        · have hsy : sy = sx := Option.some.inj (hfx.symm.trans hfy).symm
          rw [hsy]
          exact hle
        · exact hbound y hy' sy hfy
      · rcases hcases with ⟨hb, hs⟩ | ⟨l1, l2, hdec, hfb, hslt, hstrict⟩
        · subst hb
          subst hs
          exact Or.inr ⟨[], rest, by simp, hfx, hlt, by simp⟩
        · refine Or.inr ⟨x :: l1, l2, by rw [hdec, List.cons_append],
            hfb, lt_trans hlt hslt, ?_⟩
          intro y hy sy hfy
          rcases List.mem_cons.mp hy with rfl | hy'
          · have hsy : sy = sx := Option.some.inj (hfx.symm.trans hfy).symm
            rw [hsy]
            exact hslt
          · exact hstrict y hy' sy hfy
    · obtain ⟨b, s, heq, hle, hbound, hcases⟩ := ih b₀ s₀ hcov'
      have hsx_le : sx ≤ s₀ := le_of_not_lt hlt
      refine ⟨b, s, ?_, hle, ?_, ?_⟩
      · rw [scanBest_cons_keep relM retM embM w selEmbs rest hfx hlt]
        exact heq
      · intro y hy sy hfy
        rcases List.mem_cons.mp hy with rfl | hy'
        · have hsy : sy = sx := Option.some.inj (hfx.symm.trans hfy).symm
          rw [hsy]
          exact le_trans hsx_le hle
        · exact hbound y hy' sy hfy
      · rcases hcases with ⟨hb, hs⟩ | ⟨l1, l2, hdec, hfb, hslt, hstrict⟩
        · exact Or.inl ⟨hb, hs⟩
        · refine Or.inr ⟨x :: l1, l2, by rw [hdec, List.cons_append],
            hfb, hslt, ?_⟩
          intro y hy sy hfy
          rcases List.mem_cons.mp hy with rfl | hy'
          · have hsy : sy = sx := Option.some.inj (hfx.symm.trans hfy).symm
            rw [hsy]
            exact lt_of_le_of_lt hsx_le hslt
          · exact hstrict y hy' sy hfy

/-- The scan of a non-empty, fully covered remaining list succeeds, and the
winner is the first element attaining the maximal score: every score is at
most the winner's, and every element strictly before the winner scores
strictly less (the strict greater-than comparison means the first item
encountered wins under a tie). -/
theorem scanBest_spec (relM retM : List (Int × ℝ)) (embM : List (Int × List ℝ))
    (w : Weights) (selEmbs : List (List ℝ)) (l : List Int) (hne : l ≠ [])
    (hcov : ∀ x ∈ l, (scoreOf relM retM embM w selEmbs x).isSome) :
    ∃ b s l1 l2,
      scanBest relM retM embM w selEmbs l none = some (some (b, s)) ∧
      l = l1 ++ b :: l2 ∧
      scoreOf relM retM embM w selEmbs b = some s ∧
      (∀ x ∈ l, ∀ sx, scoreOf relM retM embM w selEmbs x = some sx → sx ≤ s) ∧
      (∀ x ∈ l1, ∀ sx, scoreOf relM retM embM w selEmbs x = some sx →
        sx < s) := by
  cases l with
  | nil => exact absurd rfl hne
  | cons x rest =>
    obtain ⟨sx, hfx⟩ :=
      Option.isSome_iff_exists.mp (hcov x (List.mem_cons_self _ _))
    have hcov' : ∀ y ∈ rest, (scoreOf relM retM embM w selEmbs y).isSome :=
      fun y hy => hcov y (List.mem_cons_of_mem _ hy)
    obtain ⟨b, s, heq, hle, hbound, hcases⟩ :=
      scanBest_go relM retM embM w selEmbs rest x sx hcov'
    have heq' : scanBest relM retM embM w selEmbs (x :: rest) none =
        some (some (b, s)) := by
      rw [scanBest_cons_none relM retM embM w selEmbs rest hfx]
      exact heq
    rcases hcases with ⟨hb, hs⟩ | ⟨l1, l2, hdec, hfb, hslt, hstrict⟩
    · refine ⟨b, s, [], rest, heq', by simp [hb], ?_, ?_, by simp⟩
      · rw [hb, hs]
        exact hfx
      · intro y hy sy hfy
        rcases List.mem_cons.mp hy with rfl | hy'
        · have hsy : sy = sx := Option.some.inj (hfx.symm.trans hfy).symm
          exact le_of_eq (by rw [hsy, hs])
        · exact hbound y hy' sy hfy
    · refine ⟨b, s, x :: l1, l2, heq', by rw [hdec, List.cons_append],
        hfb, ?_, ?_⟩
      · intro y hy sy hfy
        rcases List.mem_cons.mp hy with rfl | hy'
        · have hsy : sy = sx := Option.some.inj (hfx.symm.trans hfy).symm
          rw [hsy]
          exact hle
        · exact hbound y hy' sy hfy
      · intro y hy sy hfy
        rcases List.mem_cons.mp hy with rfl | hy'
        · have hsy : sy = sx := Option.some.inj (hfx.symm.trans hfy).symm
          rw [hsy]
          exact hslt
        · exact hstrict y hy' sy hfy

/-- A remaining list containing an item with a missing embedding makes the
whole scan fail, whatever the accumulator. -/
theorem scanBest_fail (relM retM : List (Int × ℝ)) (embM : List (Int × List ℝ))
    (w : Weights) (selEmbs : List (List ℝ)) (l : List Int) :
    ∀ (acc : Option (Int × ℝ)),
    (∃ x ∈ l, scoreOf relM retM embM w selEmbs x = none) →
    scanBest relM retM embM w selEmbs l acc = none := by
  induction l with
  | nil =>
    intro acc h
    simp at h
  | cons y rest ih =>
    intro acc h
    cases hfy : scoreOf relM retM embM w selEmbs y with
    | none => exact scanBest_cons_fail relM retM embM w selEmbs rest acc hfy
    | some s =>
      have hrest : ∃ x ∈ rest, scoreOf relM retM embM w selEmbs x = none := by
        obtain ⟨x, hx, hnone⟩ := h
        rcases List.mem_cons.mp hx with rfl | hx'
        · rw [hfy] at hnone
          exact absurd hnone (by simp)
        · exact ⟨x, hx', hnone⟩
      cases acc with
      | none =>
        rw [scanBest_cons_none relM retM embM w selEmbs rest hfy]
        exact ih _ hrest
      | some p =>
        obtain ⟨b, bs⟩ := p
        by_cases hlt : bs < s
        · rw [scanBest_cons_replace relM retM embM w selEmbs rest hfy hlt]
          exact ih _ hrest
        · rw [scanBest_cons_keep relM retM embM w selEmbs rest hfy hlt]
          exact ih _ hrest
theorem rerankLoop_succ (relM retM : List (Int × ℝ))
    (embM : List (Int × List ℝ)) (w : Weights) (n : Nat) (sel : List Int)
    (selEmbs : List (List ℝ)) (remaining : List Int) :
    rerankLoop relM retM embM w (n + 1) sel selEmbs remaining =
      match scanBest relM retM embM w selEmbs remaining none with
      | none => none
      | some none => none
      | some (some (b, _)) =>
        match dictFind embM b with
        | none => none
        | some be =>
          rerankLoop relM retM embM w n (sel ++ [b]) (selEmbs ++ [be])
            (remaining.erase b) := by
  rw [rerankLoop]

theorem rerankLoop_succ_eq (relM retM : List (Int × ℝ))
    (embM : List (Int × List ℝ)) (w : Weights) (n : Nat) (sel : List Int)
    (selEmbs : List (List ℝ)) (remaining : List Int) (b : Int) (s : ℝ)
    (hscan : scanBest relM retM embM w selEmbs remaining none =
      some (some (b, s))) :
    rerankLoop relM retM embM w (n + 1) sel selEmbs remaining =
      match dictFind embM b with
      | none => none
      | some be =>
        rerankLoop relM retM embM w n (sel ++ [b]) (selEmbs ++ [be])
          (remaining.erase b) := by
  rw [rerankLoop, hscan]

theorem rerankLoop_succ_found (relM retM : List (Int × ℝ))
    (embM : List (Int × List ℝ)) (w : Weights) (n : Nat) (sel : List Int)
    (selEmbs : List (List ℝ)) (remaining : List Int) (b : Int) (s : ℝ)
    (be : List ℝ)
    (hscan : scanBest relM retM embM w selEmbs remaining none =
      some (some (b, s)))
    (hbe : dictFind embM b = some be) :
    rerankLoop relM retM embM w (n + 1) sel selEmbs remaining =
      rerankLoop relM retM embM w n (sel ++ [b]) (selEmbs ++ [be])
        (remaining.erase b) := by
  rw [rerankLoop_succ_eq relM retM embM w n sel selEmbs remaining b s hscan,
    hbe]

theorem scoreOf_isSome (relM retM : List (Int × ℝ))
    (embM : List (Int × List ℝ)) (w : Weights) (selEmbs : List (List ℝ))
    (x : Int) (h : (dictFind embM x).isSome) :
    (scoreOf relM retM embM w selEmbs x).isSome := by
  rw [scoreOf]
  simpa using h

/-- Soundness of the greedy loop: as long as the iteration budget does not
exceed the number of (distinct, embedding-covered) remaining items, the loop
returns, extends the selection by exactly its budget, and keeps the
selection free of duplicates. -/
theorem rerankLoop_sound (relM retM : List (Int × ℝ))
    (embM : List (Int × List ℝ)) (w : Weights) :
    ∀ (n : Nat) (sel : List Int) (selEmbs : List (List ℝ))
      (remaining : List Int),
    remaining.Nodup →
    (∀ i ∈ remaining, (dictFind embM i).isSome) →
    n ≤ remaining.length →
    sel.Nodup →
    (∀ x ∈ sel, x ∉ remaining) →
    ∃ out, rerankLoop relM retM embM w n sel selEmbs remaining = some out ∧
      out.length = sel.length + n ∧ out.Nodup := by
  intro n
  induction n with
  | zero =>
    intro sel selEmbs remaining _ _ _ hselnd _
    exact ⟨sel, rfl, by simp, hselnd⟩
  | succ m ih =>
    intro sel selEmbs remaining hnd hcov hlen hselnd hdisj
    have hne : remaining ≠ [] := by
      intro h
      rw [h] at hlen
      simp at hlen
    have hcov' : ∀ x ∈ remaining,
        (scoreOf relM retM embM w selEmbs x).isSome :=
      fun x hx => scoreOf_isSome relM retM embM w selEmbs x (hcov x hx)
    obtain ⟨b, s, l1, l2, heq, hdec, hfb, _, _⟩ :=
      scanBest_spec relM retM embM w selEmbs remaining hne hcov'
    have hbmem : b ∈ remaining := by
      rw [hdec]
      exact List.mem_append_right _ (List.mem_cons_self _ _)
    obtain ⟨be, hbe⟩ := Option.isSome_iff_exists.mp (hcov b hbmem)
    have hstep : rerankLoop relM retM embM w (m + 1) sel selEmbs remaining =
        rerankLoop relM retM embM w m (sel ++ [b]) (selEmbs ++ [be])
          (remaining.erase b) :=
      rerankLoop_succ_found relM retM embM w m sel selEmbs remaining b s be
        heq hbe
    have h1 : (remaining.erase b).Nodup := hnd.erase _
    have h2 : ∀ i ∈ remaining.erase b, (dictFind embM i).isSome :=
      fun i hi => hcov i (List.mem_of_mem_erase hi)
    have h3 : m ≤ (remaining.erase b).length := by
      rw [List.length_erase_of_mem hbmem]
      omega
    have hbnotsel : b ∉ sel := fun hb => hdisj b hb hbmem
    have h4 : (sel ++ [b]).Nodup := by
      rw [List.nodup_append]
      refine ⟨hselnd, List.nodup_singleton _, ?_⟩
      intro a ha hab
      rw [List.mem_singleton] at hab
      subst hab
      exact hbnotsel ha
    have h5 : ∀ x ∈ sel ++ [b], x ∉ remaining.erase b := by
      intro x hx hmem
      rcases List.mem_append.mp hx with hx' | hx'
      · exact hdisj x hx' (List.mem_of_mem_erase hmem)
      · rw [List.mem_singleton] at hx'
        subst hx'
        exact ((hnd.mem_erase_iff).mp hmem).1 rfl
    obtain ⟨out, hout, hlen', hnd'⟩ :=
      ih (sel ++ [b]) (selEmbs ++ [be]) (remaining.erase b) h1 h2 h3 h4 h5
    refine ⟨out, by rw [hstep]; exact hout, ?_, hnd'⟩
    rw [hlen', List.length_append]
    simp
    omega

/-! ## Claim C4 -/

/-- C4 counterexample: with a duplicated candidate id, `remaining` (a set)
collapses to one element while the loop still runs
`min(top_k, len(candidate_ids)) = 2` iterations; the second iteration scans
an empty `remaining`, leaves `best_id = None` and raises on
`embeddings[None]`.  Here the embeddings mapping covers every id of the list
(the only id is 0), yet `rerank` fails instead of returning a list of
length `min(2, 2) = 2`. -/
theorem C4_counterexample :
    rerank [0, 0] [(0, (1 : ℝ))] [(0, [(1 : ℝ)])] [] ⟨1, 1, 1⟩ 2 = none ∧
      min 2 ([0, 0] : List Int).length = 2 :=
  ⟨rfl, rfl⟩

/-- C4 as amended: for every DUPLICATE-FREE list of candidate ids whose ids
are all covered by the embeddings mapping, every relevance/retention mapping,
every weights value and every non-negative top_k, `rerank` returns a list of
length `min(top_k, |candidate_ids|)` in which no item appears twice. -/
theorem C4_rerank_cardinality_nodup (candidate_ids : List Int)
    (relevance_scores : List (Int × ℝ)) (embeddings : List (Int × List ℝ))
    (retention_scores : List (Int × ℝ)) (weights : Weights) (top_k : Nat)
    (hnd : candidate_ids.Nodup)
    (hcov : ∀ i ∈ candidate_ids, (dictFind embeddings i).isSome) :
    ∃ out, rerank candidate_ids relevance_scores embeddings retention_scores
        weights top_k = some out ∧
      out.length = min top_k candidate_ids.length ∧ out.Nodup := by
  have hded : dedupFirst candidate_ids = candidate_ids :=
    dedupFirstAux_eq_self _ _ hnd (by simp)
  rw [rerank, hded]
  obtain ⟨out, hout, hlen, hnd'⟩ := rerankLoop_sound relevance_scores
    retention_scores embeddings weights (min top_k candidate_ids.length)
    [] [] candidate_ids hnd hcov (min_le_right _ _) List.nodup_nil
    (by simp)
  exact ⟨out, hout, by simpa using hlen, hnd'⟩

/-- C4 witness: the amended statement at a concrete input (two distinct
candidates, both with embeddings, top_k = 1). -/
theorem C4_rerank_cardinality_nodup_witness :
    ([1, 2] : List Int).Nodup ∧
      (∀ i ∈ ([1, 2] : List Int),
        (dictFind [(1, [(1 : ℝ)]), (2, [(0 : ℝ)])] i).isSome) ∧
      ∃ out, rerank [1, 2] [(1, (1 : ℝ))] [(1, [(1 : ℝ)]), (2, [(0 : ℝ)])]
          [] ⟨1, 1, 1⟩ 1 = some out ∧
        out.length = min 1 ([1, 2] : List Int).length ∧ out.Nodup :=
  ⟨by decide, by decide,
    C4_rerank_cardinality_nodup [1, 2] [(1, (1 : ℝ))]
      [(1, [(1 : ℝ)]), (2, [(0 : ℝ)])] [] ⟨1, 1, 1⟩ 1 (by decide) (by decide)⟩

/-! ## Claim C7 -/

/-- C7: on each greedy iteration over a non-empty, embedding-covered
`remaining`, the scan selects an item `b` of `remaining` whose final score
equals `weights.relevance * relevance(b) - weights.diversity *
diversity_penalty(b) + weights.retention * retention(b)` (missing
relevance/retention entries defaulting to 0.0), no remaining item scores
strictly more, every item encountered before `b` scores strictly less (the
comparison is strict greater-than, so the first encountered wins ties), and
the loop continues with `b` removed from `remaining`, never to be
considered again. -/
theorem C7_greedy_selection_step (relM retM : List (Int × ℝ))
    (embM : List (Int × List ℝ)) (w : Weights) (n : Nat) (sel : List Int)
    (selEmbs : List (List ℝ)) (remaining : List Int)
    (hne : remaining ≠ [])
    (hcov : ∀ i ∈ remaining, (dictFind embM i).isSome) :
    ∃ b s eb l1 l2,
      scanBest relM retM embM w selEmbs remaining none = some (some (b, s)) ∧
      remaining = l1 ++ b :: l2 ∧
      dictFind embM b = some eb ∧
      s = w.relevance * ((dictFind relM b).getD 0)
          - w.diversity * diversity_penalty eb selEmbs
          + w.retention * ((dictFind retM b).getD 0) ∧
      (∀ x ∈ remaining, ∀ sx,
        scoreOf relM retM embM w selEmbs x = some sx → sx ≤ s) ∧
      (∀ x ∈ l1, ∀ sx,
        scoreOf relM retM embM w selEmbs x = some sx → sx < s) ∧
      rerankLoop relM retM embM w (n + 1) sel selEmbs remaining =
        rerankLoop relM retM embM w n (sel ++ [b]) (selEmbs ++ [eb])
          (remaining.erase b) := by
  have hcov' : ∀ x ∈ remaining,
      (scoreOf relM retM embM w selEmbs x).isSome :=
    fun x hx => scoreOf_isSome relM retM embM w selEmbs x (hcov x hx)
  obtain ⟨b, s, l1, l2, heq, hdec, hfb, hbound, hstrict⟩ :=
    scanBest_spec relM retM embM w selEmbs remaining hne hcov'
  have hbmem : b ∈ remaining := by
    rw [hdec]
    exact List.mem_append_right _ (List.mem_cons_self _ _)
  obtain ⟨eb, hbe⟩ := Option.isSome_iff_exists.mp (hcov b hbmem)
  have hs : s = w.relevance * ((dictFind relM b).getD 0)
      - w.diversity * diversity_penalty eb selEmbs
      + w.retention * ((dictFind retM b).getD 0) := by
    rw [scoreOf, hbe, Option.map_some'] at hfb
    exact (Option.some.inj hfb).symm
  refine ⟨b, s, eb, l1, l2, heq, hdec, hbe, hs, hbound, hstrict, ?_⟩
  exact rerankLoop_succ_found relM retM embM w n sel selEmbs remaining b s eb
    heq hbe

/-- C7 witness: the selection-step statement at a concrete input (a single
remaining candidate with an empty embedding vector). -/
theorem C7_greedy_selection_step_witness :
    (([7] : List Int) ≠ []) ∧
      (∀ i ∈ ([7] : List Int),
        (dictFind [((7 : Int), ([] : List ℝ))] i).isSome) ∧
      ∃ b s eb l1 l2,
        scanBest [] [] [((7 : Int), ([] : List ℝ))] ⟨1, 1, 1⟩ [] [7] none =
          some (some (b, s)) ∧
        ([7] : List Int) = l1 ++ b :: l2 ∧
        dictFind [((7 : Int), ([] : List ℝ))] b = some eb ∧
        s = (Weights.mk 1 1 1).relevance * ((dictFind [] b).getD 0)
            - (Weights.mk 1 1 1).diversity * diversity_penalty eb []
            + (Weights.mk 1 1 1).retention * ((dictFind [] b).getD 0) ∧
        (∀ x ∈ ([7] : List Int), ∀ sx,
          scoreOf [] [] [((7 : Int), ([] : List ℝ))] ⟨1, 1, 1⟩ [] x =
            some sx → sx ≤ s) ∧
        (∀ x ∈ l1, ∀ sx,
          scoreOf [] [] [((7 : Int), ([] : List ℝ))] ⟨1, 1, 1⟩ [] x =
            some sx → sx < s) ∧
        rerankLoop [] [] [((7 : Int), ([] : List ℝ))] ⟨1, 1, 1⟩ (0 + 1)
            [] [] [7] =
          rerankLoop [] [] [((7 : Int), ([] : List ℝ))] ⟨1, 1, 1⟩ 0
            ([] ++ [b]) ([] ++ [eb]) (([7] : List Int).erase b) :=
  ⟨by decide, by decide,
    C7_greedy_selection_step [] [] [((7 : Int), ([] : List ℝ))] ⟨1, 1, 1⟩ 0
      [] [] [7] (by decide) (by decide)⟩

/-! ## Claim C8 -/

/-- C8: whenever some candidate id lacks an embedding and the selection loop
runs at least one iteration (top_k ≥ 1 and a non-empty candidate list — the
first iteration scans every remaining item, so the missing item is reached),
`rerank` fails with a lookup error (modelled `none`): the missing embedding
is never defaulted to a zero vector and the item is never skipped. -/
theorem C8_missing_embedding_error (candidate_ids : List Int)
    (relevance_scores : List (Int × ℝ)) (embeddings : List (Int × List ℝ))
    (retention_scores : List (Int × ℝ)) (weights : Weights) (top_k : Nat)
    (hk : 1 ≤ top_k) (hne : candidate_ids ≠ [])
    (hmiss : ∃ i ∈ candidate_ids, dictFind embeddings i = none) :
    rerank candidate_ids relevance_scores embeddings retention_scores
      weights top_k = none := by
  rw [rerank]
  have hlen : 1 ≤ candidate_ids.length := by
    cases candidate_ids with
    | nil => exact absurd rfl hne
    | cons a l => simp
  obtain ⟨m, hm⟩ : ∃ m, min top_k candidate_ids.length = m + 1 := by
    have := le_min hk hlen
    exact ⟨min top_k candidate_ids.length - 1, by omega⟩
  rw [hm, rerankLoop_succ]
  have hfail : scanBest relevance_scores retention_scores embeddings weights
      [] (dedupFirst candidate_ids) none = none := by
    apply scanBest_fail
    obtain ⟨i, hi, hnone⟩ := hmiss
    refine ⟨i, (mem_dedupFirstAux _ _).mpr ⟨hi, by simp⟩, ?_⟩
    rw [scoreOf, hnone, Option.map_none']
  rw [hfail]

/-- C8 witness: a single candidate with an empty embeddings mapping makes
`rerank` fail. -/
theorem C8_missing_embedding_error_witness :
    1 ≤ 1 ∧ (([3] : List Int) ≠ []) ∧
      (∃ i ∈ ([3] : List Int),
        dictFind ([] : List (Int × List ℝ)) i = none) ∧
      rerank [3] [] ([] : List (Int × List ℝ)) [] ⟨1, 1, 1⟩ 1 = none :=
  ⟨le_refl 1, by decide, ⟨3, by decide, rfl⟩,
    C8_missing_embedding_error [3] [] [] [] ⟨1, 1, 1⟩ 1 (le_refl 1)
      (by decide) ⟨3, by decide, rfl⟩⟩

end FeedRanking
